import Mathlib

/-!
Verification of the cluster/partition/lifecycle core of the
hazelcast-python-client repository, shallowly embedded in Lean.

Python dicts (and OrderedDicts) are modelled as insertion-ordered
association lists with unique keys: assignment to an existing key
overwrites the value in place, insertion of a fresh key appends at the
end, `pop` removes the (single) entry with the given key.
-/

set_option autoImplicit false

namespace Hazelcast

/-- `d[k] = v` on a python dict: overwrite in place or append at the end. -/
def dictSet {α : Type} (d : List (Nat × α)) (k : Nat) (v : α) : List (Nat × α) :=
  match d with
  | [] => [(k, v)]
  | (k', v') :: rest => if k' = k then (k, v) :: rest else (k', v') :: dictSet rest k v

/-- `d.get(k)` on a python dict. -/
def dictGet {α : Type} (d : List (Nat × α)) (k : Nat) : Option α :=
  match d with
  | [] => none
  | (k', v') :: rest => if k' = k then some v' else dictGet rest k

/-- `d.pop(k)` on a python dict, returning the remaining dict and whether
the key was present (`True` branch of the surrounding `try`/`except KeyError`). -/
def dictPop {α : Type} (d : List (Nat × α)) (k : Nat) : List (Nat × α) × Bool :=
  match d with
  | [] => ([], false)
  | (k', v') :: rest =>
    if k' = k then (rest, true)
    else
      let r := dictPop rest k
      ((k', v') :: r.1, r.2)

/-! ## Partition service (`hazelcast/partition.py`) -/

/-- `_PartitionTable(connection, version, partitions)`.  Connections are
identified by `Nat`; the initial table has `connection = None`.  The
`partitions` dict maps partition id to owner UUID. -/
structure PartitionTable where
  connection : Option Nat
  version : Int
  partitions : List (Nat × Nat)
deriving DecidableEq, Repr

/-- The table installed by `_InternalPartitionService.__init__`:
`_PartitionTable(None, -1, dict())`. -/
def initialPartitionTable : PartitionTable := ⟨none, -1, []⟩

/-- `_InternalPartitionService._prepare_partitions`: flatten the incoming
`(uuid, [partition, ...])` entries into a `partition → uuid` dict. -/
def preparePartitions (partitions : List (Nat × List Nat)) : List (Nat × Nat) :=
  partitions.foldl (fun acc e => e.2.foldl (fun acc2 p => dictSet acc2 p e.1) acc) []

/-- `_InternalPartitionService._should_be_applied` (the logging branches have
no effect on the result).  The incoming `connection` is an actual connection
object, compared against the current table's (possibly `None`) source. -/
def shouldBeApplied (connection : Nat) (partitions : List (Nat × List Nat))
    (version : Int) (current : PartitionTable) : Bool :=
  if partitions.isEmpty then false
  else if some connection ≠ current.connection then true
  else if version ≤ current.version then false
  else true

/-- `_InternalPartitionService.handle_partitions_view_event`: install a fresh
table built from the entries when `_should_be_applied` holds, otherwise leave
the current table in place. -/
def handlePartitionsViewEvent (table : PartitionTable) (connection : Nat)
    (partitions : List (Nat × List Nat)) (version : Int) : PartitionTable :=
  if shouldBeApplied connection partitions version table then
    ⟨some connection, version, preparePartitions partitions⟩
  else
    table

/-- The error raised by `get_partition_id` when no partition table was
fetched yet (`hazelcast.errors.ClientOfflineError`). -/
inductive PartitionError where
  | clientOfflineError
deriving DecidableEq, Repr

/-- Modelled from the spec: `hash_to_index` of `hazelcast/hash.py` is not in
the sources; per §4.7 and scenario S4, `partition_id_for(key)` is the key's
pre-computed partition hash modulo the partition count, using unsigned
arithmetic. -/
def hashToIndex (partitionHash : Nat) (count : Nat) : Nat :=
  partitionHash % count

/-- `_InternalPartitionService.get_partition_id`: raise `ClientOfflineError`
when the partition count is still 0, otherwise map the key's pre-computed
partition hash to an index. -/
def getPartitionId (partitionCount : Nat) (keyPartitionHash : Nat) :
    Except PartitionError Nat :=
  if partitionCount = 0 then .error .clientOfflineError
  else .ok (hashToIndex keyPartitionHash partitionCount)

/-- `string_partition_strategy`.  Strings are `List Char`; the key may be
`None`.  `key.index` of an absent character raises `ValueError`, caught by
the surrounding `except` which returns the key itself. -/
def stringPartitionStrategy (key : Option (List Char)) : Option (List Char) :=
  match key with
  | none => none
  | some s =>
    match s.findIdx? (· = '@') with
    | some i => some (s.drop (i + 1))
    | none => some s

example : handlePartitionsViewEvent initialPartitionTable 7 [(1, [0, 1]), (2, [2])] 5
    = ⟨some 7, 5, [(0, 1), (1, 1), (2, 2)]⟩ := by decide

example : handlePartitionsViewEvent ⟨some 7, 5, [(0, 1)]⟩ 7 [(2, [0])] 4
    = ⟨some 7, 5, [(0, 1)]⟩ := by decide

example : handlePartitionsViewEvent ⟨some 7, 10, [(0, 1)]⟩ 9 [(2, [0])] 3
    = ⟨some 9, 3, [(0, 2)]⟩ := by decide

example : stringPartitionStrategy (some "foo@bar".data) = some "bar".data := by decide

example : stringPartitionStrategy (some "plain".data) = some "plain".data := by decide

/-! ## Cluster service (`hazelcast/cluster.py`)

Member infos are identified by their UUID (spec: "Equality is by UUID"), so
a `MemberInfo` is a `Nat`.  `_create_snapshot` builds an `OrderedDict`
keyed by UUID, which our `dictSet` models (re-assignment keeps position).

`handle_members_view_event` compares the pre-call snapshot against the
module-level `_EMPTY_SNAPSHOT` sentinel **by identity** (`is`); since both
`_create_snapshot` and `clear_member_list_version` always allocate fresh
snapshot objects, that identity holds exactly until the first replacement.
The state therefore carries an `isInitial` flag tracking it.  `gate` is the
`threading.Event` `_initial_list_fetched` (it can only ever be set). -/

structure ClusterState where
  version : Int
  members : List (Nat × Nat)
  isInitial : Bool
  gate : Bool
deriving DecidableEq, Repr

/-- The state after `_InternalClusterService.__init__`: snapshot is the
`_EMPTY_SNAPSHOT = _MemberListSnapshot(-1, OrderedDict())` sentinel and the
event is unset. -/
def initialClusterState : ClusterState := ⟨-1, [], true, false⟩

/-- `_InternalClusterService._create_snapshot`'s member map. -/
def createSnapshotMembers (memberInfos : List Nat) : List (Nat × Nat) :=
  memberInfos.foldl (fun acc m => dictSet acc m m) []

/-- `_InternalClusterService.handle_members_view_event` (state part; the
listener dispatch performed by `_apply_new_state_and_fire_events` is
modelled separately as a call trace). -/
def handleMembersViewEvent (st : ClusterState) (version : Int)
    (memberInfos : List Nat) : ClusterState :=
  let applied :=
    if version ≥ st.version then
      { st with version := version, members := createSnapshotMembers memberInfos,
                isInitial := false }
    else st
  if st.isInitial then { applied with gate := true } else applied

/-- `_InternalClusterService.clear_member_list_version`: replace the snapshot
by `_MemberListSnapshot(0, current.members)` unless the current snapshot is
still the `_EMPTY_SNAPSHOT` sentinel, in which case nothing happens. -/
def clearMemberListVersion (st : ClusterState) : ClusterState :=
  if st.isInitial then st else { st with version := 0, isInitial := false }

/-- `_InternalClusterService._detect_membership_events`: members of the old
snapshot absent from the new one are dead, members of the new snapshot
absent from the old one are new.  (Python keeps `dead_members` in a set; we
list them in the old snapshot's order, which no proved property depends
on.) -/
def detectMembershipEvents (old new : List (Nat × Nat)) :
    List Nat × List Nat :=
  let oldVals := old.map (·.2)
  let newVals := new.map (·.2)
  (oldVals.filter (fun m => ¬ m ∈ newVals), newVals.filter (fun m => ¬ m ∈ oldVals))

/-- One dispatched listener call: which registration, which member, whether it
was a removal (`True`) or addition (`False`) callback, and whether the
listener raised (the bare `except` swallows the exception either way). -/
structure ListenerCall where
  regId : Nat
  member : Nat
  isRemoval : Bool
  raised : Bool
deriving DecidableEq, Repr

/-- A registered membership listener: `_listeners[regId] = (added, removed)`,
with each slot possibly `None`.  The `Bool`s record which handlers are
present (`if handler:`). -/
structure MembershipListener where
  regId : Nat
  hasAdded : Bool
  hasRemoved : Bool
deriving DecidableEq, Repr

/-- The inner loop `for _, handler in six.itervalues(self._listeners)` of the
removal phase, for one removed member: invoke every present removal handler
in registration order; a raised exception (per the `throws` oracle) is
caught and iteration continues. -/
def fireRemovedForMember (listeners : List MembershipListener)
    (throws : Nat → Nat → Bool) (m : Nat) : List ListenerCall :=
  match listeners with
  | [] => []
  | l :: rest =>
    if l.hasRemoved then
      ⟨l.regId, m, true, throws l.regId m⟩ :: fireRemovedForMember rest throws m
    else fireRemovedForMember rest throws m

/-- The inner loop `for handler, _ in six.itervalues(self._listeners)` of the
addition phase, for one added member. -/
def fireAddedForMember (listeners : List MembershipListener)
    (throws : Nat → Nat → Bool) (m : Nat) : List ListenerCall :=
  match listeners with
  | [] => []
  | l :: rest =>
    if l.hasAdded then
      ⟨l.regId, m, false, throws l.regId m⟩ :: fireAddedForMember rest throws m
    else fireAddedForMember rest throws m

/-- The listener-call trace of
`_InternalClusterService._apply_new_state_and_fire_events`: all removal
events are fired first, then all addition events. -/
def applyNewStateTrace (listeners : List MembershipListener)
    (throwsRemoved throwsAdded : Nat → Nat → Bool)
    (removals additions : List Nat) : List ListenerCall :=
  removals.flatMap (fireRemovedForMember listeners throwsRemoved) ++
    additions.flatMap (fireAddedForMember listeners throwsAdded)

/-! ## Lifecycle service (`hazelcast/lifecycle.py`) -/

/-- The `LifecycleState` enum values. -/
inductive LifecycleState where
  | starting
  | started
  | shuttingDown
  | shutdown
  | connected
  | disconnected
deriving DecidableEq, Repr

/-- One lifecycle listener call: registration id, the state passed, and
whether the listener raised (caught by the bare `except`). -/
structure LifecycleCall where
  regId : Nat
  state : LifecycleState
  raised : Bool
deriving DecidableEq, Repr

/-- `_InternalLifecycleService` state: the `running` flag and the listener
dict `registration id → on_state_change`; the `Bool` records whether the
stored callback is truthy (`if on_state_change:`). -/
structure LifecycleServiceState where
  running : Bool
  listeners : List (Nat × Bool)
deriving DecidableEq, Repr

/-- `_InternalLifecycleService.fire_lifecycle_event`: call every truthy
listener in registration order with the new state; exceptions (per the
`throws` oracle) are caught and iteration continues. -/
def fireLifecycleEvent (listeners : List (Nat × Bool))
    (throws : Nat → LifecycleState → Bool) (newState : LifecycleState) :
    List LifecycleCall :=
  match listeners with
  | [] => []
  | (rid, has) :: rest =>
    if has then
      ⟨rid, newState, throws rid newState⟩ :: fireLifecycleEvent rest throws newState
    else fireLifecycleEvent rest throws newState

/-- `_InternalLifecycleService.start`: no-op when already running, otherwise
fire `STARTING`, set `running = True`, fire `STARTED`.  Returns the new
state and the trace of listener calls. -/
def lifecycleStart (st : LifecycleServiceState)
    (throws : Nat → LifecycleState → Bool) :
    LifecycleServiceState × List LifecycleCall :=
  if st.running then (st, [])
  else
    let t1 := fireLifecycleEvent st.listeners throws .starting
    let st1 : LifecycleServiceState := { st with running := true }
    let t2 := fireLifecycleEvent st1.listeners throws .started
    (st1, t1 ++ t2)

/-- `_InternalLifecycleService.remove_listener`: `pop` the registration from
the dict, returning `True`/`False` for presence. -/
def internalRemoveListener (listeners : List (Nat × Bool)) (regId : Nat) :
    List (Nat × Bool) × Bool :=
  dictPop listeners regId

/-- The public `LifecycleService.remove_listener`: it calls the internal
service's `remove_listener` but has no `return` statement, so it evaluates
to `None` (modelled as `none`) while still mutating the listener dict. -/
def publicRemoveListener (listeners : List (Nat × Bool)) (regId : Nat) :
    List (Nat × Bool) × Option Bool :=
  let r := internalRemoveListener listeners regId
  (r.1, none)

/-! ## Vector clock (`hazelcast/cluster.py`, `VectorClock`) -/

/-- The loop of `VectorClock.is_after` over `other.entry_set()`:
`none` models the early `return False`, `some g` is falling out of the loop
with `any_timestamp_greater = g`. -/
def isAfterLoop (selfTs : List (Nat × Int)) :
    List (Nat × Int) → Bool → Option Bool
  | [], anyGreater => some anyGreater
  | (replicaId, otherTimestamp) :: rest, anyGreater =>
    match dictGet selfTs replicaId with
    | none => none
    | some localTimestamp =>
      if localTimestamp < otherTimestamp then none
      else if localTimestamp > otherTimestamp then isAfterLoop selfTs rest true
      else isAfterLoop selfTs rest anyGreater

/-- `VectorClock.is_after`: strict causal "after" comparison of the replica
timestamp dicts. -/
def isAfter (selfTs otherTs : List (Nat × Int)) : Bool :=
  match isAfterLoop selfTs otherTs false with
  | none => false
  | some anyGreater => anyGreater || decide (otherTs.length < selfTs.length)

/-- Whether a single entry of the other clock passes the loop body of
`is_after` without an early `return False`: the local timestamp for the
replica exists and is at least the other's. -/
def entryOk (selfTs : List (Nat × Int)) (p : Nat × Int) : Bool :=
  match dictGet selfTs p.1 with
  | none => false
  | some t => decide (p.2 ≤ t)

/-- Whether a single entry of the other clock makes the loop of `is_after`
set `any_timestamp_greater`. -/
def entryStrict (selfTs : List (Nat × Int)) (p : Nat × Int) : Bool :=
  match dictGet selfTs p.1 with
  | none => false
  | some t => decide (p.2 < t)

/-- The claim's characterization of `VectorClock.is_after`, following the
spec's words (§3 VectorClock): every replica timestamp present in B is ≤
the corresponding timestamp in A, and in addition either at least one of
A's corresponding timestamps is strictly greater, or A has a replica key
that B lacks. -/
def strictlyAfterSpec (selfTs otherTs : List (Nat × Int)) : Prop :=
  (∀ p ∈ otherTs, ∃ t, dictGet selfTs p.1 = some t ∧ p.2 ≤ t) ∧
  ((∃ p ∈ otherTs, ∃ t, dictGet selfTs p.1 = some t ∧ p.2 < t) ∨
    ∃ r, r ∈ selfTs.map (·.1) ∧ ¬ r ∈ otherTs.map (·.1))

example : isAfter [(1, 5), (2, 3)] [(1, 4), (2, 3)] = true := by decide
example : isAfter [(1, 5)] [(1, 5), (2, 1)] = false := by decide
example : isAfter [(1, 5), (2, 1)] [(1, 5)] = true := by decide
example : isAfter [(1, 5)] [(1, 5)] = false := by decide

/-! ## Helper lemmas -/

theorem shouldBeApplied_iff (connection : Nat) (partitions : List (Nat × List Nat))
    (version : Int) (current : PartitionTable) :
    shouldBeApplied connection partitions version current = true ↔
      partitions ≠ [] ∧ (some connection ≠ current.connection ∨ current.version < version) := by
  unfold shouldBeApplied
  split_ifs with h1 h2 h3 <;> simp_all [List.isEmpty_iff]

theorem dictPop_snd_iff {α : Type} (d : List (Nat × α)) (k : Nat) :
    (dictPop d k).2 = true ↔ k ∈ d.map (·.1) := by
  induction d with
  | nil => simp [dictPop]
  | cons p rest ih =>
    obtain ⟨k', v'⟩ := p
    by_cases h : k' = k
    · simp [dictPop, h]
    · simp [dictPop, h, ih, Ne.symm h]

theorem dictPop_keys_not_mem {α : Type} (d : List (Nat × α)) (k : Nat)
    (hd : (d.map (·.1)).Nodup) : ¬ k ∈ ((dictPop d k).1.map (·.1)) := by
  induction d with
  | nil => simp [dictPop]
  | cons p rest ih =>
    obtain ⟨k', v'⟩ := p
    simp only [List.map_cons, List.nodup_cons] at hd
    by_cases h : k' = k
    · subst h
      simpa [dictPop] using hd.1
    · simp only [dictPop, h, if_false, List.map_cons, List.mem_cons]
      rintro (rfl | hmem)
      · exact h rfl
      · exact ih hd.2 hmem

theorem fireLifecycleEvent_calls (listeners : List (Nat × Bool))
    (throws : Nat → LifecycleState → Bool) (newState : LifecycleState) :
    (fireLifecycleEvent listeners throws newState).map (fun c => (c.regId, c.state)) =
      (listeners.filter (·.2)).map (fun l => (l.1, newState)) := by
  induction listeners with
  | nil => rfl
  | cons p rest ih =>
    obtain ⟨rid, has⟩ := p
    cases has <;> simp [fireLifecycleEvent, List.filter_cons, ih]

theorem dictGet_eq_none_iff {α : Type} (d : List (Nat × α)) (k : Nat) :
    dictGet d k = none ↔ ¬ k ∈ d.map (·.1) := by
  induction d with
  | nil => simp [dictGet]
  | cons p rest ih =>
    obtain ⟨k', v⟩ := p
    by_cases h : k' = k
    · simp [dictGet, h]
    · simp [dictGet, h, ih, Ne.symm h]

theorem isAfterLoop_eq (selfTs : List (Nat × Int)) (otherTs : List (Nat × Int)) (g : Bool) :
    isAfterLoop selfTs otherTs g =
      if otherTs.all (entryOk selfTs) then
        some (g || otherTs.any (entryStrict selfTs))
      else none := by
  induction otherTs generalizing g with
  | nil => simp [isAfterLoop]
  | cons p rest ih =>
    obtain ⟨rid, bt⟩ := p
    rw [isAfterLoop]
    cases hg : dictGet selfTs rid with
    | none => simp [List.all_cons, entryOk, hg]
    | some t =>
      by_cases hlt : t < bt
      · have hok : entryOk selfTs (rid, bt) = false := by
          simp [entryOk, hg]; omega
        simp [hlt, List.all_cons, hok]
      · have hok : entryOk selfTs (rid, bt) = true := by
          simp [entryOk, hg]; omega
        by_cases hgt : t > bt
        · have hstr : entryStrict selfTs (rid, bt) = true := by
            simp [entryStrict, hg]; omega
          simp only [if_neg hlt, if_pos hgt, ih, List.all_cons, hok, Bool.true_and,
            List.any_cons, hstr, Bool.true_or, Bool.or_true]
        · have hstr : entryStrict selfTs (rid, bt) = false := by
            simp [entryStrict, hg]; omega
          simp only [if_neg hlt, if_neg hgt, ih, List.all_cons, hok, Bool.true_and,
            List.any_cons, hstr, Bool.false_or]

theorem isAfter_eq (selfTs otherTs : List (Nat × Int)) :
    isAfter selfTs otherTs =
      (otherTs.all (entryOk selfTs) &&
        (otherTs.any (entryStrict selfTs) ||
          decide (otherTs.length < selfTs.length))) := by
  rw [isAfter, isAfterLoop_eq]
  by_cases h : otherTs.all (entryOk selfTs) <;> simp [h]

theorem all_entryOk_iff (a b : List (Nat × Int)) :
    b.all (entryOk a) = true ↔
      ∀ p ∈ b, ∃ t, dictGet a p.1 = some t ∧ p.2 ≤ t := by
  rw [List.all_eq_true]
  refine ⟨fun h p hp => ?_, fun h p hp => ?_⟩
  · have hq := h p hp
    cases hg : dictGet a p.1 with
    | none => simp [entryOk, hg] at hq
    | some t =>
      simp only [entryOk, hg, decide_eq_true_eq] at hq
      exact ⟨t, rfl, hq⟩
  · obtain ⟨t, hg, hle⟩ := h p hp
    simp [entryOk, hg, hle]

theorem any_entryStrict_iff (a b : List (Nat × Int)) :
    b.any (entryStrict a) = true ↔
      ∃ p ∈ b, ∃ t, dictGet a p.1 = some t ∧ p.2 < t := by
  rw [List.any_eq_true]
  refine ⟨fun ⟨p, hp, hq⟩ => ⟨p, hp, ?_⟩, fun ⟨p, hp, t, hg, hlt⟩ => ⟨p, hp, ?_⟩⟩
  · cases hg : dictGet a p.1 with
    | none => simp [entryStrict, hg] at hq
    | some t =>
      simp only [entryStrict, hg, decide_eq_true_eq] at hq
      exact ⟨t, rfl, hq⟩
  · simp [entryStrict, hg, hlt]

theorem keys_subset_of_all_entryOk (a b : List (Nat × Int))
    (h : ∀ p ∈ b, ∃ t, dictGet a p.1 = some t ∧ p.2 ≤ t) :
    ∀ r, r ∈ b.map (·.1) → r ∈ a.map (·.1) := by
  intro r hr
  rw [List.mem_map] at hr
  obtain ⟨p, hp, rfl⟩ := hr
  obtain ⟨t, hg, _⟩ := h p hp
  by_contra hne
  rw [← dictGet_eq_none_iff] at hne
  rw [hne] at hg
  cases hg

theorem length_lt_iff_extra_key (a b : List (Nat × Int))
    (ha : (a.map (·.1)).Nodup) (hb : (b.map (·.1)).Nodup)
    (hsub : ∀ r, r ∈ b.map (·.1) → r ∈ a.map (·.1)) :
    b.length < a.length ↔ ∃ r, r ∈ a.map (·.1) ∧ ¬ r ∈ b.map (·.1) := by
  have hA : (a.map (·.1)).toFinset.card = a.length := by
    rw [List.toFinset_card_of_nodup ha, List.length_map]
  have hB : (b.map (·.1)).toFinset.card = b.length := by
    rw [List.toFinset_card_of_nodup hb, List.length_map]
  have hBA : (b.map (·.1)).toFinset ⊆ (a.map (·.1)).toFinset := by
    intro x hx
    rw [List.mem_toFinset] at hx ⊢
    exact hsub x hx
  constructor
  · intro hlen
    by_contra hno
    push_neg at hno
    have hAB : (a.map (·.1)).toFinset ⊆ (b.map (·.1)).toFinset := by
      intro x hx
      rw [List.mem_toFinset] at hx ⊢
      exact hno x hx
    have := Finset.card_le_card hAB
    omega
  · rintro ⟨r, hra, hrb⟩
    have hss : (b.map (·.1)).toFinset ⊂ (a.map (·.1)).toFinset :=
      (Finset.ssubset_iff_of_subset hBA).mpr
        ⟨r, List.mem_toFinset.mpr hra, fun hc => hrb (List.mem_toFinset.mp hc)⟩
    have := Finset.card_lt_card hss
    omega

theorem fireRemovedForMember_calls (listeners : List MembershipListener)
    (throws : Nat → Nat → Bool) (m : Nat) :
    fireRemovedForMember listeners throws m =
      (listeners.filter (·.hasRemoved)).map
        (fun l => ⟨l.regId, m, true, throws l.regId m⟩) := by
  induction listeners with
  | nil => rfl
  | cons l rest ih =>
    cases h : l.hasRemoved <;>
      simp [fireRemovedForMember, List.filter_cons, h, ih]

theorem fireAddedForMember_calls (listeners : List MembershipListener)
    (throws : Nat → Nat → Bool) (m : Nat) :
    fireAddedForMember listeners throws m =
      (listeners.filter (·.hasAdded)).map
        (fun l => ⟨l.regId, m, false, throws l.regId m⟩) := by
  induction listeners with
  | nil => rfl
  | cons l rest ih =>
    cases h : l.hasAdded <;>
      simp [fireAddedForMember, List.filter_cons, h, ih]

theorem fireRemovedForMember_funeq (listeners : List MembershipListener)
    (throws : Nat → Nat → Bool) :
    fireRemovedForMember listeners throws = fun m =>
      (listeners.filter (·.hasRemoved)).map
        (fun l => ⟨l.regId, m, true, throws l.regId m⟩) :=
  funext fun m => fireRemovedForMember_calls listeners throws m

theorem fireAddedForMember_funeq (listeners : List MembershipListener)
    (throws : Nat → Nat → Bool) :
    fireAddedForMember listeners throws = fun m =>
      (listeners.filter (·.hasAdded)).map
        (fun l => ⟨l.regId, m, false, throws l.regId m⟩) :=
  funext fun m => fireAddedForMember_calls listeners throws m

theorem mem_removalPhase_isRemoval (listeners : List MembershipListener)
    (throws : Nat → Nat → Bool) (removals : List Nat) (c : ListenerCall)
    (hc : c ∈ removals.flatMap (fireRemovedForMember listeners throws)) :
    c.isRemoval = true := by
  rw [List.mem_flatMap] at hc
  obtain ⟨m, _, hm⟩ := hc
  rw [fireRemovedForMember_calls, List.mem_map] at hm
  obtain ⟨l, _, rfl⟩ := hm
  rfl

theorem mem_additionPhase_isRemoval (listeners : List MembershipListener)
    (throws : Nat → Nat → Bool) (additions : List Nat) (c : ListenerCall)
    (hc : c ∈ additions.flatMap (fireAddedForMember listeners throws)) :
    c.isRemoval = false := by
  rw [List.mem_flatMap] at hc
  obtain ⟨m, _, hm⟩ := hc
  rw [fireAddedForMember_calls, List.mem_map] at hm
  obtain ⟨l, _, rfl⟩ := hm
  rfl

/-! ## Claim theorems -/

/-- C1: `handle_partitions_view_event(connection, partitions, version)`
replaces the partition table by a new table built from the entries if and
only if `partitions` is non-empty and (the connection differs from the
current table's source connection, or the version is strictly greater than
the current table's version); in every other case the table is unchanged. -/
theorem handlePartitionsViewEvent_spec (table : PartitionTable) (connection : Nat)
    (partitions : List (Nat × List Nat)) (version : Int) :
    (partitions ≠ [] ∧ (some connection ≠ table.connection ∨ table.version < version) →
      handlePartitionsViewEvent table connection partitions version =
        ⟨some connection, version, preparePartitions partitions⟩) ∧
    (¬ (partitions ≠ [] ∧ (some connection ≠ table.connection ∨ table.version < version)) →
      handlePartitionsViewEvent table connection partitions version = table) := by
  constructor
  · intro h
    unfold handlePartitionsViewEvent
    rw [if_pos ((shouldBeApplied_iff connection partitions version table).mpr h)]
  · intro h
    unfold handlePartitionsViewEvent
    rw [if_neg]
    intro hc
    exact h ((shouldBeApplied_iff connection partitions version table).mp hc)

theorem handlePartitionsViewEvent_spec_witness :
    handlePartitionsViewEvent ⟨some 7, 10, [(0, 1)]⟩ 9 [(2, [0])] 3 =
      ⟨some 9, 3, preparePartitions [(2, [0])]⟩ ∧
    handlePartitionsViewEvent ⟨some 7, 10, [(0, 1)]⟩ 7 [(2, [0])] 9 =
      ⟨some 7, 10, [(0, 1)]⟩ :=
  ⟨(handlePartitionsViewEvent_spec ⟨some 7, 10, [(0, 1)]⟩ 9 [(2, [0])] 3).1 (by decide),
   (handlePartitionsViewEvent_spec ⟨some 7, 10, [(0, 1)]⟩ 7 [(2, [0])] 9).2 (by decide)⟩

/-- C6: `get_partition_id(key)` raises `ClientOfflineError` if and only if
the partition count is 0; with a non-zero count it returns the key's
pre-computed partition hash modulo the partition count and raises nothing. -/
theorem getPartitionId_spec (partitionCount keyPartitionHash : Nat) :
    (getPartitionId partitionCount keyPartitionHash =
        Except.error PartitionError.clientOfflineError ↔ partitionCount = 0) ∧
    (partitionCount ≠ 0 →
      getPartitionId partitionCount keyPartitionHash =
        Except.ok (keyPartitionHash % partitionCount)) := by
  unfold getPartitionId hashToIndex
  split_ifs with h <;> simp [h]

theorem getPartitionId_spec_witness :
    (271 : Nat) ≠ 0 ∧ getPartitionId 271 3735928559 = Except.ok (3735928559 % 271) :=
  ⟨by decide, (getPartitionId_spec 271 3735928559).2 (by decide)⟩

/-- C8: `start()` is a no-op (no state change, no events) when already
running; otherwise it fires `STARTING` to every registered truthy listener
in registration order, sets `running` to `True`, and fires `STARTED`
likewise.  The traces on the right-hand side do not depend on the `throws`
oracle: a listener that raises is caught, so the remaining listeners are
still invoked and the state change still completes. -/
theorem lifecycleStart_spec (st : LifecycleServiceState)
    (throws : Nat → LifecycleState → Bool) :
    (st.running = true → lifecycleStart st throws = (st, [])) ∧
    (st.running = false →
      (lifecycleStart st throws).1 = ⟨true, st.listeners⟩ ∧
      ((lifecycleStart st throws).2.map fun c => (c.regId, c.state)) =
        ((st.listeners.filter (·.2)).map fun l => (l.1, LifecycleState.starting)) ++
          ((st.listeners.filter (·.2)).map fun l => (l.1, LifecycleState.started))) := by
  constructor
  · intro h
    simp [lifecycleStart, h]
  · intro h
    refine ⟨by simp [lifecycleStart, h], ?_⟩
    simp [lifecycleStart, h, fireLifecycleEvent_calls]

theorem lifecycleStart_spec_witness :
    lifecycleStart ⟨true, [(1, true)]⟩ (fun _ _ => true) = (⟨true, [(1, true)]⟩, []) ∧
    (lifecycleStart ⟨false, [(1, true), (2, false), (3, true)]⟩ (fun _ _ => true)).1 =
      ⟨true, [(1, true), (2, false), (3, true)]⟩ :=
  ⟨(lifecycleStart_spec ⟨true, [(1, true)]⟩ (fun _ _ => true)).1 rfl,
   ((lifecycleStart_spec ⟨false, [(1, true), (2, false), (3, true)]⟩ (fun _ _ => true)).2
      rfl).1⟩

/-- C10: the public `LifecycleService.remove_listener` always evaluates to
`None` — both when the registration existed (the entry is still removed
from the listener map, exactly as the internal call leaves it) and when it
did not — while the internal `remove_listener` returns `True` exactly when
the registration id was present. -/
theorem publicRemoveListener_spec (listeners : List (Nat × Bool)) (regId : Nat) :
    (publicRemoveListener listeners regId).2 = none ∧
    (publicRemoveListener listeners regId).1 = (internalRemoveListener listeners regId).1 ∧
    ((internalRemoveListener listeners regId).2 = true ↔ regId ∈ listeners.map (·.1)) ∧
    ((listeners.map (·.1)).Nodup →
      ¬ regId ∈ ((publicRemoveListener listeners regId).1.map (·.1))) := by
  refine ⟨rfl, rfl, dictPop_snd_iff listeners regId, ?_⟩
  intro hd
  exact dictPop_keys_not_mem listeners regId hd

theorem handleMembersViewEvent_version_le (st : ClusterState) (version : Int)
    (memberInfos : List Nat) :
    st.version ≤ (handleMembersViewEvent st version memberInfos).version := by
  unfold handleMembersViewEvent
  split_ifs <;> simp_all

/-- C2: `handle_members_view_event(version, member_infos)` publishes a new
snapshot only when `version ≥ current.version` (a stale event leaves both
the version and the member map untouched); when it publishes, the new
snapshot carries the event's version.  Consequently the published snapshot
version never decreases over any sequence of events. -/
theorem handleMembersViewEvent_monotone (st : ClusterState) (version : Int)
    (memberInfos : List Nat) :
    (version < st.version →
      (handleMembersViewEvent st version memberInfos).version = st.version ∧
      (handleMembersViewEvent st version memberInfos).members = st.members) ∧
    (st.version ≤ version →
      (handleMembersViewEvent st version memberInfos).version = version ∧
      (handleMembersViewEvent st version memberInfos).members =
        createSnapshotMembers memberInfos) ∧
    st.version ≤ (handleMembersViewEvent st version memberInfos).version ∧
    ∀ events : List (Int × List Nat),
      st.version ≤
        ((events.foldl (fun s e => handleMembersViewEvent s e.1 e.2) st)).version := by
  refine ⟨?_, ?_, handleMembersViewEvent_version_le st version memberInfos, ?_⟩
  · intro h
    unfold handleMembersViewEvent
    split_ifs <;> simp_all <;> omega
  · intro h
    unfold handleMembersViewEvent
    split_ifs <;> simp_all
  · intro events
    induction events generalizing st with
    | nil => simp
    | cons e rest ih =>
      exact le_trans (handleMembersViewEvent_version_le st e.1 e.2)
        (by simpa using ih (handleMembersViewEvent st e.1 e.2))

theorem handleMembersViewEvent_monotone_witness :
    ((handleMembersViewEvent ⟨5, [(1, 1)], false, true⟩ 3 [2]).version = 5 ∧
      (handleMembersViewEvent ⟨5, [(1, 1)], false, true⟩ 3 [2]).members = [(1, 1)]) ∧
    (handleMembersViewEvent ⟨5, [(1, 1)], false, true⟩ 6 [2]).version = 6 :=
  ⟨(handleMembersViewEvent_monotone ⟨5, [(1, 1)], false, true⟩ 3 [2]).1 (by decide),
   ((handleMembersViewEvent_monotone ⟨5, [(1, 1)], false, true⟩ 6 [2]).2.1 (by decide)).1⟩

/-- C4 counterexample: from the initial state, a members-view event carrying
an **empty** member list still releases the `initialMemberListFetched`
gate, refuting "no event carrying an empty member list releases it" (the
code sets the event whenever the pre-call snapshot is still the
`_EMPTY_SNAPSHOT` sentinel, regardless of the payload). -/
theorem handleMembersViewEvent_gate_counterexample :
    (handleMembersViewEvent initialClusterState 0 []).gate = true := by decide

/-- C4 (amended): the gate is released exactly upon handling the first
members-view event: after any call the gate is set iff it was already set
or the pre-call snapshot was still the initial sentinel, independently of
whether the carried member list is empty; in particular any event handled
from the initial state — non-empty or empty — sets the gate. -/
theorem handleMembersViewEvent_gate_spec (st : ClusterState) (version : Int)
    (memberInfos : List Nat) :
    (handleMembersViewEvent st version memberInfos).gate = (st.gate || st.isInitial) ∧
    (handleMembersViewEvent initialClusterState version memberInfos).gate = true := by
  constructor
  · unfold handleMembersViewEvent
    split_ifs <;> simp_all
  · unfold handleMembersViewEvent initialClusterState
    split_ifs <;> simp_all

/-- C9 counterexample: on the initial state, whose snapshot is still the
`_EMPTY_SNAPSHOT` sentinel, `clear_member_list_version()` does **not** set
the version to 0 (it stays -1), refuting the claim quantified over every
cluster-service state. -/
theorem clearMemberListVersion_counterexample :
    (clearMemberListVersion initialClusterState).version ≠ 0 := by decide

/-- C9 (amended): when the current snapshot is not the initial sentinel,
`clear_member_list_version()` sets the snapshot version to 0 and changes
nothing else (member map, gate untouched); when the snapshot is still the
initial sentinel, the call changes nothing at all. -/
theorem clearMemberListVersion_spec (st : ClusterState) :
    (st.isInitial = false → clearMemberListVersion st = { st with version := 0 }) ∧
    (st.isInitial = true → clearMemberListVersion st = st) := by
  obtain ⟨v, m, ini, g⟩ := st
  constructor <;> intro h <;> simp only at h <;> subst h <;>
    simp [clearMemberListVersion]

theorem clearMemberListVersion_spec_witness :
    clearMemberListVersion ⟨5, [(1, 1)], false, true⟩ = ⟨0, [(1, 1)], false, true⟩ ∧
    clearMemberListVersion initialClusterState = initialClusterState :=
  ⟨(clearMemberListVersion_spec ⟨5, [(1, 1)], false, true⟩).1 rfl,
   (clearMemberListVersion_spec initialClusterState).2 rfl⟩

theorem stringPartitionStrategy_decomp (s : List Char) (h : '@' ∈ s) :
    ∃ pre suf, s = pre ++ '@' :: suf ∧ ¬ '@' ∈ pre ∧
      stringPartitionStrategy (some s) = some suf := by
  induction s with
  | nil => cases h
  | cons c t ih =>
    by_cases hc : c = '@'
    · subst hc
      exact ⟨[], t, rfl, by simp, by simp [stringPartitionStrategy, List.findIdx?_cons]⟩
    · have ht : '@' ∈ t := by
        rcases List.mem_cons.mp h with rfl | ht
        · exact absurd rfl hc
        · exact ht
      obtain ⟨pre, suf, hs, hpre, heq⟩ := ih ht
      cases hf : t.findIdx? (· = '@') with
      | none =>
        rw [List.findIdx?_eq_none_iff] at hf
        have := hf '@' ht
        simp at this
      | some j =>
        have hsuf : suf = t.drop (j + 1) := by
          rw [stringPartitionStrategy] at heq
          simp only [hf] at heq
          exact (Option.some.injEq _ _ ▸ heq).symm
        refine ⟨c :: pre, suf, by rw [hs]; rfl, ?_, ?_⟩
        · simp only [List.mem_cons, not_or]
          exact ⟨fun he => hc he.symm, hpre⟩
        · rw [stringPartitionStrategy]
          simp only [List.findIdx?_cons, List.findIdx?_succ, hf]
          simp [hc, hsuf]

/-- C7: `string_partition_strategy(key)` returns `None` for `None`; when the
key contains `'@'` it returns the suffix after the first `'@'` (the key
decomposes as `pre ++ '@' :: result` with no `'@'` in `pre`); otherwise it
returns the key itself.  In particular `"foo@bar" → "bar"` and
`"plain" → "plain"`. -/
theorem stringPartitionStrategy_spec :
    stringPartitionStrategy none = none ∧
    (∀ s : List Char, ¬ '@' ∈ s → stringPartitionStrategy (some s) = some s) ∧
    (∀ s : List Char, '@' ∈ s →
      ∃ pre suf, s = pre ++ '@' :: suf ∧ ¬ '@' ∈ pre ∧
        stringPartitionStrategy (some s) = some suf) ∧
    stringPartitionStrategy (some "foo@bar".data) = some "bar".data ∧
    stringPartitionStrategy (some "plain".data) = some "plain".data := by
  refine ⟨rfl, ?_, fun s hs => stringPartitionStrategy_decomp s hs, by decide, by decide⟩
  intro s hs
  have hnone : s.findIdx? (· = '@') = none := by
    rw [List.findIdx?_eq_none_iff]
    intro x hx
    simp only [decide_eq_false_iff_not]
    rintro rfl
    exact hs hx
  simp [stringPartitionStrategy, hnone]

theorem stringPartitionStrategy_spec_witness :
    stringPartitionStrategy (some "plain".data) = some "plain".data ∧
    ∃ pre suf, "foo@bar".data = pre ++ '@' :: suf ∧ ¬ '@' ∈ pre ∧
      stringPartitionStrategy (some "foo@bar".data) = some suf :=
  ⟨stringPartitionStrategy_spec.2.1 "plain".data (by decide),
   stringPartitionStrategy_spec.2.2.1 "foo@bar".data (by decide)⟩

theorem publicRemoveListener_spec_witness :
    (publicRemoveListener [(1, true), (2, false)] 1).2 = none ∧
    ¬ (1 : Nat) ∈ ((publicRemoveListener [(1, true), (2, false)] 1).1.map (·.1)) :=
  ⟨(publicRemoveListener_spec [(1, true), (2, false)] 1).1,
   (publicRemoveListener_spec [(1, true), (2, false)] 1).2.2.2 (by decide)⟩

/-- C3: for a single accepted members-view event, every `member_removed`
callback is invoked before any `member_added` callback; within each of the
two groups the registered listeners fire in registration order for each
member (the trace is member-by-member, each member visiting the registered
handlers in registration order); and the call trace — up to the recorded
`raised` flags — is independent of which listeners raise, i.e. an
exception is caught and dispatch continues with the remaining listeners
and members. -/
theorem applyNewStateTrace_spec (listeners : List MembershipListener)
    (throwsRemoved throwsAdded throwsRemoved' throwsAdded' : Nat → Nat → Bool)
    (removals additions : List Nat) :
    (applyNewStateTrace listeners throwsRemoved throwsAdded removals additions =
      removals.flatMap (fun m => (listeners.filter (·.hasRemoved)).map
        (fun l => ⟨l.regId, m, true, throwsRemoved l.regId m⟩)) ++
      additions.flatMap (fun m => (listeners.filter (·.hasAdded)).map
        (fun l => ⟨l.regId, m, false, throwsAdded l.regId m⟩))) ∧
    (∀ i j
      (hi : i < (applyNewStateTrace listeners throwsRemoved throwsAdded
        removals additions).length)
      (hj : j < (applyNewStateTrace listeners throwsRemoved throwsAdded
        removals additions).length),
      ((applyNewStateTrace listeners throwsRemoved throwsAdded removals
        additions).get ⟨i, hi⟩).isRemoval = true →
      ((applyNewStateTrace listeners throwsRemoved throwsAdded removals
        additions).get ⟨j, hj⟩).isRemoval = false → i < j) ∧
    ((applyNewStateTrace listeners throwsRemoved' throwsAdded' removals
        additions).map (fun c => (c.regId, c.member, c.isRemoval)) =
      (applyNewStateTrace listeners throwsRemoved throwsAdded removals
        additions).map (fun c => (c.regId, c.member, c.isRemoval))) := by
  refine ⟨?_, ?_, ?_⟩
  · simp only [applyNewStateTrace, fireRemovedForMember_funeq, fireAddedForMember_funeq]
  · intro i j hi hj hri hrj
    unfold applyNewStateTrace at hi hj hri hrj
    rw [List.get_eq_getElem] at hri hrj
    by_contra hij
    push_neg at hij
    have hiP : i <
        (removals.flatMap (fireRemovedForMember listeners throwsRemoved)).length := by
      by_contra hge
      push_neg at hge
      have hmem : (removals.flatMap (fireRemovedForMember listeners throwsRemoved) ++
          additions.flatMap (fireAddedForMember listeners throwsAdded))[i] ∈
          additions.flatMap (fireAddedForMember listeners throwsAdded) := by
        rw [List.getElem_append_right hge]
        exact List.getElem_mem _
      have hfalse := mem_additionPhase_isRemoval listeners throwsAdded additions _ hmem
      rw [hri] at hfalse
      simp at hfalse
    have hjP :
        (removals.flatMap (fireRemovedForMember listeners throwsRemoved)).length ≤ j := by
      by_contra hlt
      push_neg at hlt
      have hmem : (removals.flatMap (fireRemovedForMember listeners throwsRemoved) ++
          additions.flatMap (fireAddedForMember listeners throwsAdded))[j] ∈
          removals.flatMap (fireRemovedForMember listeners throwsRemoved) := by
        rw [List.getElem_append_left hlt]
        exact List.getElem_mem _
      have htrue := mem_removalPhase_isRemoval listeners throwsRemoved removals _ hmem
      rw [hrj] at htrue
      simp at htrue
    omega
  · simp only [applyNewStateTrace, fireRemovedForMember_funeq, fireAddedForMember_funeq,
      List.map_append, List.map_flatMap, List.map_map]
    rfl

theorem applyNewStateTrace_spec_witness :
    applyNewStateTrace [⟨1, true, true⟩, ⟨2, true, false⟩] (fun _ _ => false)
        (fun _ _ => true) [10] [20] =
      [10].flatMap (fun m => ([⟨1, true, true⟩, ⟨2, true, false⟩].filter
        (MembershipListener.hasRemoved ·)).map
          (fun l => ⟨l.regId, m, true, (fun _ _ => false) l.regId m⟩)) ++
      [20].flatMap (fun m => ([⟨1, true, true⟩, ⟨2, true, false⟩].filter
        (MembershipListener.hasAdded ·)).map
          (fun l => ⟨l.regId, m, false, (fun _ _ => true) l.regId m⟩)) ∧
    (0 : Nat) < 1 :=
  ⟨(applyNewStateTrace_spec [⟨1, true, true⟩, ⟨2, true, false⟩] (fun _ _ => false)
      (fun _ _ => true) (fun _ _ => false) (fun _ _ => true) [10] [20]).1,
   (applyNewStateTrace_spec [⟨1, true, true⟩, ⟨2, true, false⟩] (fun _ _ => false)
      (fun _ _ => true) (fun _ _ => false) (fun _ _ => true) [10] [20]).2.1 0 1
     (by decide) (by decide) (by decide) (by decide)⟩

/-- C5: for vector clocks A and B (replica-timestamp dicts, so their key
lists have no duplicates), `A.is_after(B)` returns `True` iff every replica
timestamp present in B is ≤ the corresponding timestamp in A and, in
addition, either at least one of A's corresponding timestamps is strictly
greater or A has a replica key that B lacks; in particular
`A={r1:5, r2:3}` is strictly after `B={r1:4, r2:3}` and `A={r1:5}` is not
strictly after `B={r1:5, r2:1}`. -/
theorem isAfter_spec (a b : List (Nat × Int))
    (ha : (a.map (·.1)).Nodup) (hb : (b.map (·.1)).Nodup) :
    (isAfter a b = true ↔ strictlyAfterSpec a b) ∧
    isAfter [(1, 5), (2, 3)] [(1, 4), (2, 3)] = true ∧
    isAfter [(1, 5)] [(1, 5), (2, 1)] = false := by
  refine ⟨?_, by decide, by decide⟩
  rw [isAfter_eq]
  simp only [Bool.and_eq_true, Bool.or_eq_true, decide_eq_true_eq]
  rw [all_entryOk_iff, any_entryStrict_iff]
  unfold strictlyAfterSpec
  constructor
  · rintro ⟨hall, hrest⟩
    refine ⟨hall, ?_⟩
    rcases hrest with hstrict | hlen
    · exact Or.inl hstrict
    · exact Or.inr (by
        have := (length_lt_iff_extra_key a b ha hb
          (keys_subset_of_all_entryOk a b hall)).mp hlen
        obtain ⟨r, hra, hrb⟩ := this
        exact ⟨r, hra, hrb⟩)
  · rintro ⟨hall, hrest⟩
    refine ⟨hall, ?_⟩
    rcases hrest with hstrict | hextra
    · exact Or.inl hstrict
    · exact Or.inr ((length_lt_iff_extra_key a b ha hb
        (keys_subset_of_all_entryOk a b hall)).mpr hextra)

theorem isAfter_spec_witness :
    strictlyAfterSpec [(1, 5), (2, 3)] [(1, 4), (2, 3)] :=
  ((isAfter_spec [(1, 5), (2, 3)] [(1, 4), (2, 3)] (by decide) (by decide)).1).mp
    (by decide)

end Hazelcast
